import Mathlib

/-!
Verification development for the morpho-sense-rewards batch pipeline
(`src/index.js`).  The score accumulator, window clamp, final accrual,
reward allocator and Merkle committer are embedded as executable Lean
definitions; `Decimal` values are modelled by exact rationals, extended
with the `Infinity` / `NaN` values that `decimal.js` produces on division
by zero (every arithmetic operation the script performs on the values in
range is exact in 20-digit decimal precision, so ℚ is faithful for them).
JS objects keyed by address strings enumerate in insertion order, so the
`scores` table is modelled as an association list: first occurrence wins
on lookup, updates replace in place, fresh keys are appended.
-/

namespace MorphoSense

/-- Addresses are opaque identifiers; `0` stands for
`ethers.constants.AddressZero`, the mint/burn sentinel. -/
abbrev Address := Nat

/-- `ethers.constants.AddressZero`, the sentinel used for mints (`from`)
and burns (`to`). -/
def addressZero : Address := 0

/-- One `Transfer` log entry, as destructured in the accumulator loop of
`src/index.js` (`const { from, to, amount, block } of aggregatedTransfers`).
On-chain amounts are unsigned integers. -/
structure TransferEvent where
  fromAddr : Address
  toAddr : Address
  amount : Nat
  block : Nat
  deriving DecidableEq, Repr

/-- `prevCheckpoint` of a holder: running balance (a `Decimal`, which the
code lets go negative) and the block it was taken at. -/
structure Checkpoint where
  amount : ℚ
  block : Nat
  deriving DecidableEq, Repr

/-- One entry of the `scores` table: `{ score, prevCheckpoint }`. -/
structure UserScore where
  score : ℚ
  prevCheckpoint : Checkpoint
  deriving DecidableEq, Repr

/-- The `scores` object, in JS insertion order. -/
abbrev ScoresMap := List (Address × UserScore)

/-- `scores[u]` — first entry with the given key. -/
def lookupScore : ScoresMap → Address → Option UserScore
  | [], _ => none
  | (a, us) :: rest, u => if a = u then some us else lookupScore rest u

/-- `scores[u] = v` on an existing key: replace in place (JS objects keep
the key's original position).  On an absent key this is the identity; the
embedding only uses it after a successful lookup. -/
def updateScore : ScoresMap → Address → UserScore → ScoresMap
  | [], _, _ => []
  | (a, us) :: rest, u, v =>
      if a = u then (a, v) :: rest else (a, us) :: updateScore rest u v

/-- The window-clamped score increment, exactly as computed at
`src/index.js` lines 67–78 (and duplicated at lines 91–97 for the `from`
side): if the previous checkpoint precedes `startBlock` only the portion
of the interval after `startBlock` counts, and nothing counts when the
event block is not past `startBlock`. -/
def accrueIncrement (startBlock : Nat) (cp : Checkpoint) (block : Nat) : ℚ :=
  if startBlock > cp.block then
    if startBlock < block then cp.amount * ((block : ℚ) - (startBlock : ℚ))
    else 0
  else cp.amount * ((block : ℚ) - (cp.block : ℚ))

/-- The `to` side of one event (`src/index.js` lines 63–86): skip the burn
sentinel; accrue and credit an existing checkpoint, or lazily create one
with score `0`. -/
def applyTo (startBlock : Nat) (scores : ScoresMap) (ev : TransferEvent) : ScoresMap :=
  if ev.toAddr ≠ addressZero then
    match lookupScore scores ev.toAddr with
    | some us =>
        updateScore scores ev.toAddr
          { score := us.score + accrueIncrement startBlock us.prevCheckpoint ev.block
            prevCheckpoint :=
              { amount := us.prevCheckpoint.amount + (ev.amount : ℚ), block := ev.block } }
    | none =>
        scores ++ [(ev.toAddr,
          { score := 0
            prevCheckpoint := { amount := (ev.amount : ℚ), block := ev.block } })]
  else scores

/-- The `from` side of one event (`src/index.js` lines 89–99): guarded by
`scores[from] && from !== AddressZero`, so a `from` with no checkpoint is
silently skipped; the debit `minus(amount)` is applied with no
non-negativity check. -/
def applyFrom (startBlock : Nat) (scores : ScoresMap) (ev : TransferEvent) : ScoresMap :=
  match lookupScore scores ev.fromAddr with
  | some us =>
      if ev.fromAddr ≠ addressZero then
        updateScore scores ev.fromAddr
          { score := us.score + accrueIncrement startBlock us.prevCheckpoint ev.block
            prevCheckpoint :=
              { amount := us.prevCheckpoint.amount - (ev.amount : ℚ), block := ev.block } }
      else scores
  | none => scores

/-- One iteration of the accumulator loop: the `to` branch runs first, and
the `from` branch reads the table it produced (relevant for
self-transfers). -/
def processEvent (startBlock : Nat) (scores : ScoresMap) (ev : TransferEvent) : ScoresMap :=
  applyFrom startBlock (applyTo startBlock scores ev) ev

/-- The whole accumulator loop over the (already block-sorted) event
list. -/
def processEvents (startBlock : Nat) (scores : ScoresMap)
    (events : List TransferEvent) : ScoresMap :=
  events.foldl (processEvent startBlock) scores

/-- `endBlock = currentBlock < endBlock ? currentBlock : endBlock`
(`src/index.js` line 104).  The JS default `endBlock = Infinity`
corresponds to any configured value `≥ latestKnownBlock`. -/
def effectiveEndBlock (endBlock latestKnownBlock : Nat) : Nat :=
  if latestKnownBlock < endBlock then latestKnownBlock else endBlock

/-- The final accrual loop (`src/index.js` lines 105–108): every holder is
credited `prevCheckpoint.amount * (endBlock - prevCheckpoint.block)` — with
no `startBlock` clamp — and the checkpoint block is advanced to
`endBlock`. -/
def finalAccrue (endBlock : Nat) (scores : ScoresMap) : ScoresMap :=
  scores.map fun e =>
    (e.1,
      { score := e.2.score +
          e.2.prevCheckpoint.amount * ((endBlock : ℚ) - (e.2.prevCheckpoint.block : ℚ))
        prevCheckpoint := { amount := e.2.prevCheckpoint.amount, block := endBlock } })

/-- Scores after the event loop and the final accrual. -/
def finalScores (startBlock endBlock latestKnownBlock : Nat)
    (events : List TransferEvent) : ScoresMap :=
  finalAccrue (effectiveEndBlock endBlock latestKnownBlock)
    (processEvents startBlock [] events)

/-- A holder's current score (`0` before a checkpoint exists). -/
def scoreOf (scores : ScoresMap) (u : Address) : ℚ :=
  match lookupScore scores u with
  | some us => us.score
  | none => 0

/-- `Object.values(scores).reduce((acc, { score }) => acc.plus(score), 0)`
(`src/index.js` line 110). -/
def totalScore (scores : ScoresMap) : ℚ :=
  (scores.map fun e => e.2.score).foldl (· + ·) 0

/-- A `decimal.js` value as the allocator can produce it: a finite value,
a signed infinity (division of a nonzero value by zero), or `NaN`
(`0/0`). -/
inductive DecVal where
  | fin (q : ℚ)
  | posInf
  | negInf
  | nan
  deriving DecidableEq, Repr

/-- `a.div(b)` with `decimal.js` zero-divisor semantics. -/
def decDiv (a b : ℚ) : DecVal :=
  if b = 0 then
    if a = 0 then DecVal.nan
    else if 0 < a then DecVal.posInf
    else DecVal.negInf
  else DecVal.fin (a / b)

/-- `v.toNumber() > t` (`src/index.js` line 119): `Infinity` exceeds any
finite threshold, `-Infinity` and `NaN` never compare greater. -/
def decGtNum : DecVal → ℚ → Bool
  | DecVal.fin q, t => decide (t < q)
  | DecVal.posInf, _ => true
  | DecVal.negInf, _ => false
  | DecVal.nan, _ => false

/-- `v.times(p)` for a finite `p`. -/
def decTimes : DecVal → ℚ → DecVal
  | DecVal.fin q, p => DecVal.fin (q * p)
  | DecVal.posInf, p =>
      if 0 < p then DecVal.posInf else if p < 0 then DecVal.negInf else DecVal.nan
  | DecVal.negInf, p =>
      if 0 < p then DecVal.negInf else if p < 0 then DecVal.posInf else DecVal.nan
  | DecVal.nan, _ => DecVal.nan

/-- `q.toDecimalPlaces(0)` under the `decimal.js` default rounding mode
`ROUND_HALF_UP` (round to nearest, ties away from zero). -/
def roundDp0 (q : ℚ) : ℚ :=
  if 0 ≤ q then ((⌊q + 1/2⌋ : ℤ) : ℚ) else ((-⌊-q + 1/2⌋ : ℤ) : ℚ)

/-- `v.toDecimalPlaces(0)`; infinities and `NaN` round to themselves. -/
def decToDp0 : DecVal → DecVal
  | DecVal.fin q => DecVal.fin (roundDp0 q)
  | v => v

/-- `MIN_POT_PERCENTAGE = 0.001` (`src/index.js` line 22; the JS double
`0.001` and the `Decimal`-to-double conversion agree at exactly
`1/1000`, so the strict comparison is faithfully `> 1/1000`). -/
def MIN_POT_PERCENTAGE : ℚ := 1/1000

/-- One iteration of the rights loop (`src/index.js` lines 117–121) for a
holder with the given `UserScore`, against the batch `totalScore`:
`_score = score.div(totalScore)`, kept only when
`_score.toNumber() > minPct`, valued
`_score.times(pool).toDecimalPlaces(0)`. -/
def rightsEntry (minPct pool totalS : ℚ) (us : UserScore) : Option DecVal :=
  let sh := decDiv us.score totalS
  if decGtNum sh minPct then some (decToDp0 (decTimes sh pool)) else none

/-- The `rights` table (`src/index.js` lines 116–121), in `scores`
iteration order. -/
def computeRights (minPct pool : ℚ) (scores : ScoresMap) : List (Address × DecVal) :=
  scores.filterMap fun e =>
    (rightsEntry minPct pool (totalScore scores) e.2).map fun v => (e.1, v)

/-- The finite part of a rights value (used to sum quantized amounts). -/
def finPart : DecVal → ℚ
  | DecVal.fin q => q
  | _ => 0

/-- Sum of the (finite) quantized amounts of a rights table. -/
def rightsSum (rights : List (Address × DecVal)) : ℚ :=
  (rights.map fun e => finPart e.2).sum

/-- Modelled from the spec: an injective code for a rights value, standing
in for the fixed documented leaf encoding of §4.4 (`src/merkleTree.js` is
not in the repository). -/
def decValCode : DecVal → Nat
  | DecVal.fin q =>
      4 + Nat.pair q.num.natAbs (Nat.pair (if q.num < 0 then 1 else 0) q.den)
  | DecVal.posInf => 1
  | DecVal.negInf => 2
  | DecVal.nan => 3

/-- Modelled from the spec: the collision-resistant leaf hash over
`(address, amount)` of §4.4, modelled as an injective pairing. -/
def leafHash (address : Address) (amount : DecVal) : Nat :=
  Nat.pair 1 (Nat.pair address (decValCode amount))

/-- Modelled from the spec: the internal node hash of §4.4 — hash of the
two children with the pair **sorted** before combining. -/
def nodeHash (a b : Nat) : Nat :=
  if a ≤ b then Nat.pair 2 (Nat.pair a b) else Nat.pair 2 (Nat.pair b a)

/-- Modelled from the spec: the well-defined empty-tree sentinel root of
§4.4. -/
def emptyRoot : Nat := 0

/-- Modelled from the spec: combine one tree level pairwise; a trailing
unpaired node is carried up unchanged. -/
def pairUp : List Nat → List Nat
  | a :: b :: rest => nodeHash a b :: pairUp rest
  | l => l

lemma pairUp_length_le : ∀ l : List Nat, (pairUp l).length ≤ l.length
  | [] => le_refl _
  | [_] => le_refl _
  | _ :: _ :: rest => by
      have := pairUp_length_le rest
      simp only [pairUp, List.length_cons]
      omega

/-- Modelled from the spec: fold levels up to the root; the empty leaf set
yields the sentinel root, a singleton level is its own root. -/
def rootFromLevel : List Nat → Nat
  | [] => emptyRoot
  | [h] => h
  | a :: b :: rest => rootFromLevel (pairUp (a :: b :: rest))
  termination_by l => l.length
  decreasing_by
    have := pairUp_length_le rest
    simp only [pairUp, List.length_cons]
    omega

/-- Modelled from the spec: the sibling hashes met walking from the leaf
at `idx` to the root, bottom-up (§4.4); an unpaired trailing node
contributes no sibling at its level. -/
def proofsFromLevel : List Nat → Nat → List Nat
  | [], _ => []
  | [_], _ => []
  | a :: b :: rest, idx =>
      (if idx % 2 = 1 then [(a :: b :: rest).getD (idx - 1) 0]
       else if idx + 1 < (a :: b :: rest).length then [(a :: b :: rest).getD (idx + 1) 0]
       else [])
      ++ proofsFromLevel (pairUp (a :: b :: rest)) (idx / 2)
  termination_by l _ => l.length
  decreasing_by
    have := pairUp_length_le rest
    simp only [pairUp, List.length_cons]
    omega

/-- The artifact `{ root, proofs }`. -/
structure Distribution where
  root : Nat
  proofs : List (Address × DecVal × List Nat)
  deriving DecidableEq, Repr

/-- Modelled from the spec: `computeMerkleTree` of `src/merkleTree.js`
(absent from the repository), per §4.4 — leaf hashes over
`(address, amount)`, sorted-pair internal nodes, sentinel root for the
empty leaf set, per-leaf bottom-up sibling paths. -/
def computeMerkleTree (leaves : List (Address × DecVal)) : Distribution :=
  let level := leaves.map fun e => leafHash e.1 e.2
  { root := rootFromLevel level
    proofs := leaves.enum.map fun p => (p.2.1, p.2.2, proofsFromLevel level p.1) }

/-- The inputs of one batch run (the event list is passed separately). -/
structure Config where
  startBlock : Nat
  endBlock : Nat
  latestKnownBlock : Nat
  pool : ℚ
  minPct : ℚ
  deriving DecidableEq, Repr

/-- The full core pipeline of `src/index.js` lines 61–125: accumulate,
final-accrue, allocate, commit. -/
def runPipeline (cfg : Config) (events : List TransferEvent) :
    List (Address × DecVal) × Distribution :=
  let scores := finalScores cfg.startBlock cfg.endBlock cfg.latestKnownBlock events
  let rights := computeRights cfg.minPct cfg.pool scores
  (rights, computeMerkleTree rights)

/-- `true` when the event blocks are ascending, each at least `b` (the
sort at `src/index.js` line 53 guarantees this for the processed list). -/
def blocksAscendingFrom (b : Nat) : List TransferEvent → Bool
  | [] => true
  | ev :: rest => decide (b ≤ ev.block) && blocksAscendingFrom ev.block rest

/-- `true` when the event's `from` debit, applied to the table the `to`
branch produced, would not push the balance negative (or is skipped). -/
def overdraftOk (startBlock : Nat) (scores : ScoresMap) (ev : TransferEvent) : Bool :=
  if ev.fromAddr = addressZero then true
  else
    match lookupScore (applyTo startBlock scores ev) ev.fromAddr with
    | some us => decide ((ev.amount : ℚ) ≤ us.prevCheckpoint.amount)
    | none => true

/-- `true` when no event of the run overdraws a balance. -/
def noOverdraft (startBlock : Nat) : ScoresMap → List TransferEvent → Bool
  | _, [] => true
  | scores, ev :: rest =>
      overdraftOk startBlock scores ev &&
        noOverdraft startBlock (processEvent startBlock scores ev) rest

/-- The last event block of a run, or `b` if there is none. -/
def endBound (b : Nat) (events : List TransferEvent) : Nat :=
  events.foldl (fun _ ev => ev.block) b

/-- The state invariant of a well-formed run up to block `b`: every
checkpoint holds a non-negative balance taken at a block `≤ b`. -/
def GoodState (b : Nat) (scores : ScoresMap) : Prop :=
  ∀ e ∈ scores, 0 ≤ e.2.prevCheckpoint.amount ∧ e.2.prevCheckpoint.block ≤ b

/-! Helper lemmas about the association-list operations. -/

lemma lookupScore_mem : ∀ {st : ScoresMap} {u : Address} {us : UserScore},
    lookupScore st u = some us → (u, us) ∈ st
  | [], u, us, h => by simp [lookupScore] at h
  | (a, w) :: rest, u, us, h => by
      by_cases ha : a = u
      · subst ha
        rw [lookupScore, if_pos rfl] at h
        exact List.mem_cons.mpr (Or.inl (by rw [Option.some.injEq] at h; rw [h]))
      · rw [lookupScore, if_neg ha] at h
        exact List.mem_cons.mpr (Or.inr (lookupScore_mem h))

lemma mem_updateScore : ∀ {st : ScoresMap} {u : Address} {v : UserScore} {e},
    e ∈ updateScore st u v → e ∈ st ∨ e = (u, v)
  | [], u, v, e, h => by simp [updateScore] at h
  | (a, w) :: rest, u, v, e, h => by
      by_cases ha : a = u
      · rw [updateScore, if_pos ha] at h
        rcases List.mem_cons.mp h with h1 | h1
        · right; rw [h1, ha]
        · left; exact List.mem_cons_of_mem _ h1
      · rw [updateScore, if_neg ha] at h
        rcases List.mem_cons.mp h with h1 | h1
        · left; exact h1 ▸ List.mem_cons_self _ _
        · rcases mem_updateScore h1 with h2 | h2
          · left; exact List.mem_cons_of_mem _ h2
          · right; exact h2

lemma lookupScore_append_some {st : ScoresMap} {u : Address} {us : UserScore}
    (h : lookupScore st u = some us) (l₂ : ScoresMap) :
    lookupScore (st ++ l₂) u = some us := by
  induction st with
  | nil => simp [lookupScore] at h
  | cons e rest ih =>
      obtain ⟨a, w⟩ := e
      by_cases ha : a = u
      · subst ha
        rw [lookupScore, if_pos rfl] at h
        simp [lookupScore, h]
      · rw [lookupScore, if_neg ha] at h
        simpa [lookupScore, ha] using ih h

lemma lookupScore_append_none {st : ScoresMap} {u : Address}
    (h : lookupScore st u = none) (l₂ : ScoresMap) :
    lookupScore (st ++ l₂) u = lookupScore l₂ u := by
  induction st with
  | nil => rfl
  | cons e rest ih =>
      obtain ⟨a, w⟩ := e
      by_cases ha : a = u
      · subst ha
        rw [lookupScore, if_pos rfl] at h
        exact absurd h (by simp)
      · rw [lookupScore, if_neg ha] at h
        simpa [lookupScore, ha] using ih h

lemma lookupScore_updateScore_self {scores : ScoresMap} {u : Address} {us : UserScore}
    (v : UserScore) (h : lookupScore scores u = some us) :
    lookupScore (updateScore scores u v) u = some v := by
  induction scores with
  | nil => simp [lookupScore] at h
  | cons e rest ih =>
      obtain ⟨a, w⟩ := e
      by_cases ha : a = u
      · subst ha
        simp [lookupScore, updateScore]
      · simp only [lookupScore, updateScore, if_neg ha] at h ⊢
        exact ih h

lemma lookupScore_updateScore_ne {scores : ScoresMap} {u a : Address}
    (v : UserScore) (h : a ≠ u) :
    lookupScore (updateScore scores u v) a = lookupScore scores a := by
  induction scores with
  | nil => rfl
  | cons e rest ih =>
      obtain ⟨b, w⟩ := e
      by_cases hb : b = u
      · subst hb
        simp [lookupScore, updateScore, Ne.symm h]
      · simp only [lookupScore, updateScore, if_neg hb]
        by_cases hba : b = a
        · simp [hba]
        · simp [hba, ih]

lemma updateScore_updateScore (scores : ScoresMap) (u : Address) (v w : UserScore) :
    updateScore (updateScore scores u v) u w = updateScore scores u w := by
  induction scores with
  | nil => rfl
  | cons e rest ih =>
      obtain ⟨b, x⟩ := e
      by_cases hb : b = u
      · simp [updateScore, hb]
      · simp [updateScore, hb, ih]

lemma accrueIncrement_same_block (s blk : Nat) (x : ℚ) :
    accrueIncrement s ⟨x, blk⟩ blk = 0 := by
  simp only [accrueIncrement]
  split_ifs with h1 h2
  · omega
  · rfl
  · simp

/-- Membership in the rights table, unfolded: an entry comes from a
`scores` entry whose share passes the strict filter, and its value is the
share scaled by the pool and rounded — a formula that does not involve the
threshold or any other holder's inclusion. -/
lemma mem_computeRights {θ P : ℚ} {scores : ScoresMap} {u : Address} {v : DecVal} :
    (u, v) ∈ computeRights θ P scores ↔
      ∃ us, (u, us) ∈ scores ∧
        decGtNum (decDiv us.score (totalScore scores)) θ = true ∧
        v = decToDp0 (decTimes (decDiv us.score (totalScore scores)) P) := by
  constructor
  · intro h
    obtain ⟨e, he, hfe⟩ := List.mem_filterMap.mp h
    obtain ⟨w, hw, hew⟩ := Option.map_eq_some'.mp hfe
    simp only [rightsEntry] at hw
    by_cases hgt : decGtNum (decDiv e.2.score (totalScore scores)) θ = true
    · rw [if_pos hgt] at hw
      obtain ⟨h1, h2⟩ := Prod.mk.injEq .. ▸ hew
      exact ⟨e.2, by simpa [← h1] using he, hgt, by rw [← h2, ← Option.some.injEq, hw]⟩
    · rw [if_neg hgt] at hw
      exact absurd hw (by simp)
  · rintro ⟨us, hmem, hgt, hv⟩
    refine List.mem_filterMap.mpr ⟨(u, us), hmem, ?_⟩
    simp only [rightsEntry, if_pos hgt, Option.map_some', hv]

/-- Claim C1 (code bug): the final accrual does **not** apply the
window-clamp policy.  A holder minted 100 at block 50, with
`startBlock = 150` and `effectiveEndBlock = min 300 1000 = 300`, is
credited `100 * (300 - 50) = 25000` by the final loop, while the clamp
policy applied at `effectiveEndBlock` (as every transfer-triggered accrual
does, and as the code's own header comment — holdings before `startBlock`
are ignored — requires) yields `100 * (300 - 150) = 15000`. -/
theorem claimC1_finalAccrualUnclamped :
    scoreOf (finalScores 150 300 1000 [⟨0, 1, 100, 50⟩]) 1 = 25000 ∧
    accrueIncrement 150 ⟨100, 50⟩ 300 = 15000 := by
  refine ⟨?_, ?_⟩ <;>
    norm_num [scoreOf, finalScores, finalAccrue, effectiveEndBlock, processEvents,
      processEvent, applyTo, applyFrom, lookupScore, updateScore, accrueIncrement,
      addressZero]

/-- Claim C2 counterexample: an event whose `from` (address `2`) has no
checkpoint is processed without any error — the debit is silently skipped
(`2` still has no entry afterwards) — and an overdraft (address `1` spends
20 holding 10) drives the balance to `-10` with no error either; the
accumulator never signals a ConsistencyError. -/
theorem claimC2_counterexample :
    processEvents 0 [] [⟨2, 1, 5, 10⟩] = [(1, ⟨0, ⟨5, 10⟩⟩)] ∧
    lookupScore (processEvents 0 [] [⟨2, 1, 5, 10⟩]) 2 = none ∧
    (lookupScore (processEvents 0 [] [⟨0, 1, 10, 0⟩, ⟨1, 3, 20, 5⟩]) 1).map
      (fun us => us.prevCheckpoint.amount) = some (-10) := by
  refine ⟨?_, ?_, ?_⟩ <;>
    norm_num [processEvents, processEvent, applyTo, applyFrom, lookupScore, updateScore,
      accrueIncrement, addressZero]

/-- Claim C3 counterexample: with two holders of equal score and pool
`P = 3`, each `normalizedShare = 1/2` quantizes to
`(1/2 * 3).toDecimalPlaces(0) = 2` — not `⌊1/2 * 3⌋ = 1` — so rounding is
half-up, not truncation, and the emitted amounts sum to `4 > P`. -/
theorem claimC3_counterexample :
    computeRights MIN_POT_PERCENTAGE 3 (finalScores 0 1 1 [⟨0, 1, 1, 0⟩, ⟨0, 2, 1, 0⟩]) =
      [(1, DecVal.fin 2), (2, DecVal.fin 2)] ∧
    rightsSum (computeRights MIN_POT_PERCENTAGE 3
      (finalScores 0 1 1 [⟨0, 1, 1, 0⟩, ⟨0, 2, 1, 0⟩])) = 4 ∧
    ¬ rightsSum (computeRights MIN_POT_PERCENTAGE 3
      (finalScores 0 1 1 [⟨0, 1, 1, 0⟩, ⟨0, 2, 1, 0⟩])) ≤ 3 ∧
    DecVal.fin 2 ≠ DecVal.fin ((⌊(1/2 : ℚ) * 3⌋ : ℤ) : ℚ) := by
  have h32 : ⌊(1/2 : ℚ) * 3⌋ = 1 := by norm_num [Int.floor_eq_iff]
  refine ⟨?_, ?_, ?_, ?_⟩ <;>
    norm_num [computeRights, rightsEntry, decDiv, decGtNum, decTimes, decToDp0, roundDp0,
      MIN_POT_PERCENTAGE, totalScore, finalScores, finalAccrue, effectiveEndBlock,
      processEvents, processEvent, applyTo, applyFrom, lookupScore, updateScore,
      accrueIncrement, addressZero, List.filterMap_cons, List.filterMap_nil, rightsSum,
      finPart, h32]

/-- Claim C4: transfer-triggered accrual follows the WindowClamp policy
exactly — `balance * (block - lastBlock)` when `lastBlock ≥ startBlock`,
`balance * (block - startBlock)` when `lastBlock < startBlock < block`,
and `0` when `block ≤ startBlock`; and on the spec's worked example
(mint 50 at block 100 and 50 at block 200, `startBlock = 150`,
`endBlock = 300`) the final score is `2500 + 100 * (300 - 200) = 12500`. -/
theorem claimC4_windowClampPolicy :
    (∀ (startBlock blk : Nat) (cp : Checkpoint),
        accrueIncrement startBlock cp blk =
          if startBlock ≤ cp.block then cp.amount * ((blk : ℚ) - (cp.block : ℚ))
          else if startBlock < blk then cp.amount * ((blk : ℚ) - (startBlock : ℚ))
          else 0) ∧
    scoreOf (finalScores 150 300 1000 [⟨0, 1, 50, 100⟩, ⟨0, 1, 50, 200⟩]) 1 = 12500 := by
  constructor
  · intro startBlock blk cp
    simp only [accrueIncrement]
    split_ifs <;> first | rfl | omega
  · norm_num [scoreOf, finalScores, finalAccrue, effectiveEndBlock, processEvents,
      processEvent, applyTo, applyFrom, lookupScore, updateScore, accrueIncrement,
      addressZero]

/-- Claim C5 (code bug): events beyond `effectiveEndBlock` do change final
scores.  With window `[0, 300]` (`effectiveEndBlock = 300`), a holder
minted 100 at block 100 scores `20000`; adding a second mint of 100 at
block 400 — past the window — changes the final score to `10000`, because
the block-400 accrual is followed by a negative final-accrual interval
`(300 - 400)`.  The code's own comment says holdings after `endBlock` are
ignored. -/
theorem claimC5_eventsBeyondEndAffectScores :
    effectiveEndBlock 300 1000000 = 300 ∧
    List.filter (fun ev => decide (ev.block ≤ 300))
        [⟨0, 1, 100, 100⟩, (⟨0, 1, 100, 400⟩ : TransferEvent)] = [⟨0, 1, 100, 100⟩] ∧
    scoreOf (finalScores 0 300 1000000 [⟨0, 1, 100, 100⟩, ⟨0, 1, 100, 400⟩]) 1 = 10000 ∧
    scoreOf (finalScores 0 300 1000000 [⟨0, 1, 100, 100⟩]) 1 = 20000 := by
  refine ⟨rfl, rfl, ?_, ?_⟩ <;>
    norm_num [scoreOf, finalScores, finalAccrue, effectiveEndBlock, processEvents,
      processEvent, applyTo, applyFrom, lookupScore, updateScore, accrueIncrement,
      addressZero]

/-- Claim C7 counterexample: `totalScore = 0` does **not** imply an empty
distribution.  A mint of 10 to `1`, an overdraft transfer of 20 from `1`
to `2`, and a burn of 10 from `2`, all at block 0, leave balances
`-10` and `10`; accruing to block 100 gives scores `-1000` and `1000`,
summing to `0` — and holder `2`'s share `1000 / 0 = Infinity` passes the
`> MIN_POT_PERCENTAGE` filter, so the rights table is non-empty (with an
`Infinity` amount). -/
theorem claimC7_counterexample :
    totalScore (finalScores 0 100 100 [⟨0, 1, 10, 0⟩, ⟨1, 2, 20, 0⟩, ⟨2, 0, 10, 0⟩]) = 0 ∧
    computeRights MIN_POT_PERCENTAGE (1337 * 10 ^ 18)
        (finalScores 0 100 100 [⟨0, 1, 10, 0⟩, ⟨1, 2, 20, 0⟩, ⟨2, 0, 10, 0⟩]) =
      [(2, DecVal.posInf)] := by
  refine ⟨?_, ?_⟩ <;>
    norm_num [computeRights, rightsEntry, decDiv, decGtNum, decTimes, decToDp0, roundDp0,
      MIN_POT_PERCENTAGE, totalScore, finalScores, finalAccrue, effectiveEndBlock,
      processEvents, processEvent, applyTo, applyFrom, lookupScore, updateScore,
      accrueIncrement, addressZero, List.filterMap_cons, List.filterMap_nil]

/-- Claim C8 counterexample: `accruedScore` is not non-decreasing.  A
single (block-sorted) mint of 100 at block 400 with
`effectiveEndBlock = min 300 1000 = 300` leaves the holder's score at `0`
after the event loop, and the final accrual then *decreases* it to
`100 * (300 - 400) = -10000`. -/
theorem claimC8_counterexample :
    blocksAscendingFrom 0 [(⟨0, 1, 100, 400⟩ : TransferEvent)] = true ∧
    scoreOf (processEvents 0 [] [⟨0, 1, 100, 400⟩]) 1 = 0 ∧
    scoreOf (finalScores 0 300 1000 [⟨0, 1, 100, 400⟩]) 1 = -10000 ∧
    (-10000 : ℚ) < 0 := by
  refine ⟨rfl, ?_, ?_, by norm_num⟩ <;>
    norm_num [scoreOf, finalScores, finalAccrue, effectiveEndBlock, processEvents,
      processEvent, applyTo, applyFrom, lookupScore, updateScore, accrueIncrement,
      addressZero]

/-- Claim C2 amended: when `from` has no checkpoint (after the `to` branch)
the event's debit is **silently skipped** — the step is exactly the `to`
branch alone, with no error of any kind — and when `from` does have a
checkpoint the debit `balance - amount` is applied with **no negativity
check** (the resulting balance may be negative); no ConsistencyError
exists anywhere in the accumulator. -/
theorem claimC2_amended (startBlock : Nat) (st : ScoresMap) (ev : TransferEvent) :
    (lookupScore (applyTo startBlock st ev) ev.fromAddr = none →
      processEvent startBlock st ev = applyTo startBlock st ev) ∧
    (∀ us, ev.fromAddr ≠ addressZero →
      lookupScore (applyTo startBlock st ev) ev.fromAddr = some us →
      lookupScore (processEvent startBlock st ev) ev.fromAddr =
        some { score := us.score + accrueIncrement startBlock us.prevCheckpoint ev.block
               prevCheckpoint := { amount := us.prevCheckpoint.amount - (ev.amount : ℚ)
                                   block := ev.block } }) := by
  constructor
  · intro h
    simp only [processEvent, applyFrom, h]
  · intro us hne h
    simp only [processEvent, applyFrom, h, if_pos hne]
    exact lookupScore_updateScore_self _ h

/-- Witness for the amended C2: address `2` spends 5 with no checkpoint and
the event is processed as a pure credit to `1`; address `1` spends 20
holding 10 and ends at balance `-10` (score `50` accrued for blocks 0–5),
with no error in either case. -/
theorem claimC2_witness :
    processEvent 0 [] ⟨2, 1, 5, 10⟩ = applyTo 0 [] ⟨2, 1, 5, 10⟩ ∧
    lookupScore (processEvent 0 [(1, ⟨0, ⟨10, 0⟩⟩)] ⟨1, 3, 20, 5⟩) 1 =
      some ⟨50, ⟨-10, 5⟩⟩ := by
  constructor
  · exact (claimC2_amended 0 [] ⟨2, 1, 5, 10⟩).1
      (by norm_num [applyTo, lookupScore, addressZero])
  · have h := (claimC2_amended 0 [(1, ⟨0, ⟨10, 0⟩⟩)] ⟨1, 3, 20, 5⟩).2 ⟨0, ⟨10, 0⟩⟩
      (by norm_num [addressZero])
      (by norm_num [applyTo, lookupScore, addressZero])
    rw [h]
    norm_num [accrueIncrement]

/-- Claim C6: the minimum-share filter is strict — a holder whose share is
exactly the default threshold `MIN_POT_PERCENTAGE = 1/1000` is excluded —
and every rights entry's amount is `share.times(pool).toDecimalPlaces(0)`,
a formula involving neither the threshold nor any other holder's
inclusion, so dropping a below-threshold holder changes no other holder's
amount. -/
theorem claimC6_strictThreshold :
    MIN_POT_PERCENTAGE = 1/1000 ∧
    (∀ (P totalS : ℚ) (us : UserScore),
        decDiv us.score totalS = DecVal.fin MIN_POT_PERCENTAGE →
        rightsEntry MIN_POT_PERCENTAGE P totalS us = none) ∧
    (∀ (θ θ' P : ℚ) (scores : ScoresMap) (u : Address) (v : DecVal),
        (u, v) ∈ computeRights θ P scores →
        ∃ us, (u, us) ∈ scores ∧
          v = decToDp0 (decTimes (decDiv us.score (totalScore scores)) P) ∧
          (decGtNum (decDiv us.score (totalScore scores)) θ' = true →
            (u, v) ∈ computeRights θ' P scores)) := by
  refine ⟨rfl, ?_, ?_⟩
  · intro P totalS us h
    simp [rightsEntry, h, decGtNum]
  · intro θ θ' P scores u v h
    obtain ⟨us, hmem, _, hv⟩ := mem_computeRights.mp h
    exact ⟨us, hmem, hv, fun hθ' => mem_computeRights.mpr ⟨us, hmem, hθ', hv⟩⟩

/-- Witness for C6: a holder with score 1 out of `totalScore = 1000` sits
exactly at the `1/1000` threshold and gets no rights entry; and the
concrete entry `(1, 2)` of the C3 scenario is characterized by the
threshold-free formula. -/
theorem claimC6_witness :
    rightsEntry MIN_POT_PERCENTAGE 5 1000 ⟨1, ⟨0, 0⟩⟩ = none ∧
    (∃ us, ((1 : Address), us) ∈ finalScores 0 1 1 [⟨0, 1, 1, 0⟩, ⟨0, 2, 1, 0⟩] ∧
      DecVal.fin 2 = decToDp0 (decTimes (decDiv us.score
        (totalScore (finalScores 0 1 1 [⟨0, 1, 1, 0⟩, ⟨0, 2, 1, 0⟩]))) 3) ∧
      (decGtNum (decDiv us.score
          (totalScore (finalScores 0 1 1 [⟨0, 1, 1, 0⟩, ⟨0, 2, 1, 0⟩]))) 0 = true →
        ((1 : Address), DecVal.fin 2) ∈
          computeRights 0 3 (finalScores 0 1 1 [⟨0, 1, 1, 0⟩, ⟨0, 2, 1, 0⟩]))) := by
  constructor
  · exact claimC6_strictThreshold.2.1 5 1000 ⟨1, ⟨0, 0⟩⟩
      (by norm_num [decDiv, MIN_POT_PERCENTAGE])
  · have hmem : ((1 : Address), DecVal.fin 2) ∈
        computeRights MIN_POT_PERCENTAGE 3 (finalScores 0 1 1 [⟨0, 1, 1, 0⟩, ⟨0, 2, 1, 0⟩]) := by
      have heq : computeRights MIN_POT_PERCENTAGE 3
          (finalScores 0 1 1 [⟨0, 1, 1, 0⟩, ⟨0, 2, 1, 0⟩]) =
          [(1, DecVal.fin 2), (2, DecVal.fin 2)] := by
        norm_num [computeRights, rightsEntry, decDiv, decGtNum, decTimes, decToDp0, roundDp0,
          MIN_POT_PERCENTAGE, totalScore, finalScores, finalAccrue, effectiveEndBlock,
          processEvents, processEvent, applyTo, applyFrom, lookupScore, updateScore,
          accrueIncrement, addressZero, List.filterMap_cons, List.filterMap_nil]
      rw [heq]
      simp
    obtain ⟨us, h⟩ := claimC6_strictThreshold.2.2 MIN_POT_PERCENTAGE 0 3
      (finalScores 0 1 1 [⟨0, 1, 1, 0⟩, ⟨0, 2, 1, 0⟩]) 1 (DecVal.fin 2) hmem
    exact ⟨us, h⟩

lemma foldl_add_eq : ∀ (l : List ℚ) (a : ℚ), l.foldl (· + ·) a = a + l.sum
  | [], a => by simp
  | x :: l, a => by
      rw [List.foldl_cons, foldl_add_eq l (a + x), List.sum_cons]
      ring

lemma totalScore_eq_sum (scores : ScoresMap) :
    totalScore scores = ((scores.map fun e => e.2.score).sum) := by
  rw [totalScore, foldl_add_eq, zero_add]

lemma all_zero_of_sum_zero : ∀ l : List ℚ, (∀ x ∈ l, 0 ≤ x) → l.sum = 0 → ∀ x ∈ l, x = 0
  | [], _, _, x, hx => absurd hx (List.not_mem_nil x)
  | y :: l, h, hsum, x, hx => by
      have hy : 0 ≤ y := h y (List.mem_cons_self y l)
      have hl : 0 ≤ l.sum := List.sum_nonneg fun z hz => h z (List.mem_cons_of_mem y hz)
      rw [List.sum_cons] at hsum
      rcases List.mem_cons.mp hx with h1 | h1
      · subst h1; linarith
      · exact all_zero_of_sum_zero l (fun z hz => h z (List.mem_cons_of_mem y hz))
          (by linarith) x h1

lemma roundDp0_le_add_one (q : ℚ) (h : 0 ≤ q) : roundDp0 q ≤ q + 1 := by
  rw [roundDp0, if_pos h]
  have := Int.floor_le (q + 1/2)
  linarith

lemma roundDp0_nonneg (q : ℚ) (h : 0 ≤ q) : 0 ≤ roundDp0 q := by
  rw [roundDp0, if_pos h]
  have : (0 : ℤ) ≤ ⌊q + 1/2⌋ := Int.floor_nonneg.mpr (by linarith)
  exact_mod_cast this

lemma finPart_fin (q : ℚ) : finPart (DecVal.fin q) = q := rfl

lemma rightsSum_le_aux (θ P totalS : ℚ) (hP : 0 ≤ P) (hT : 0 < totalS) :
    ∀ l : ScoresMap, (∀ e ∈ l, 0 ≤ e.2.score) →
      rightsSum (l.filterMap fun e => (rightsEntry θ P totalS e.2).map fun v => (e.1, v)) ≤
        ((l.map fun e => e.2.score).sum / totalS) * P +
          ((l.filterMap fun e => (rightsEntry θ P totalS e.2).map fun v => (e.1, v)).length : ℚ)
  | [], _ => by simp [rightsSum]
  | e :: l, h => by
      have ih := rightsSum_le_aux θ P totalS hP hT l
        (fun x hx => h x (List.mem_cons_of_mem _ hx))
      have he : 0 ≤ e.2.score := h e (List.mem_cons_self _ _)
      have hsharePos : 0 ≤ e.2.score / totalS * P :=
        mul_nonneg (div_nonneg he (le_of_lt hT)) hP
      have hdiv : decDiv e.2.score totalS = DecVal.fin (e.2.score / totalS) := by
        simp [decDiv, ne_of_gt hT]
      simp only [rightsSum] at ih ⊢
      by_cases hkeep : decGtNum (decDiv e.2.score totalS) θ = true
      · rw [hdiv] at hkeep
        have hfe : rightsEntry θ P totalS e.2 =
            some (DecVal.fin (roundDp0 (e.2.score / totalS * P))) := by
          simp [rightsEntry, hdiv, hkeep, decTimes, decToDp0]
        have hround := roundDp0_le_add_one _ hsharePos
        simp only [List.filterMap_cons, hfe, Option.map_some', List.map_cons, List.sum_cons,
          List.length_cons, finPart_fin]
        rw [add_div, add_mul]
        push_cast
        linarith
      · have hfe : rightsEntry θ P totalS e.2 = none := by
          simp [rightsEntry, hkeep]
        simp only [List.filterMap_cons, hfe, Option.map_none', List.map_cons, List.sum_cons]
        rw [add_div, add_mul]
        linarith

/-- Claim C3 amended: the allocator rounds with `toDecimalPlaces(0)`,
i.e. half-up (ties away from zero), not truncation — each emitted amount
is `roundDp0 (normalizedShare * P)` — and accordingly the guaranteed bound
on the emitted sum is `P` plus one unit per emitted holder (half-up
rounding adds at most one per entry), not `P` itself. -/
theorem claimC3_amended (θ P : ℚ) (scores : ScoresMap) (hP : 0 ≤ P)
    (hs : ∀ e ∈ scores, 0 ≤ e.2.score) :
    (∀ p ∈ computeRights θ P scores, ∃ us, (p.1, us) ∈ scores ∧
        p.2 = DecVal.fin (roundDp0 (us.score / totalScore scores * P))) ∧
    rightsSum (computeRights θ P scores) ≤ P + ((computeRights θ P scores).length : ℚ) := by
  have htot : totalScore scores = (scores.map fun e => e.2.score).sum := totalScore_eq_sum _
  have htotnn : 0 ≤ totalScore scores := by
    rw [htot]
    refine List.sum_nonneg ?_
    intro x hx
    obtain ⟨e, he, rfl⟩ := List.mem_map.mp hx
    exact hs e he
  rcases eq_or_lt_of_le htotnn with h0 | hpos
  · have hz : ∀ e ∈ scores, e.2.score = 0 := by
      intro e he
      exact all_zero_of_sum_zero (scores.map fun e => e.2.score)
        (by
          intro x hx
          obtain ⟨e', he', rfl⟩ := List.mem_map.mp hx
          exact hs e' he')
        (by rw [← htot, ← h0]) e.2.score (List.mem_map.mpr ⟨e, he, rfl⟩)
    have hnil : computeRights θ P scores = [] := by
      refine List.filterMap_eq_nil_iff.mpr ?_
      intro e he
      simp [rightsEntry, decDiv, ← h0, hz e he, decGtNum]
    rw [hnil]
    exact ⟨fun p hp => absurd hp (List.not_mem_nil p), by simpa [rightsSum] using hP⟩
  · constructor
    · rintro ⟨u, v⟩ hp
      obtain ⟨us, hmem, hgt, hv⟩ := mem_computeRights.mp hp
      refine ⟨us, hmem, ?_⟩
      rw [hv]
      simp [decDiv, ne_of_gt hpos, decTimes, decToDp0]
    · have haux := rightsSum_le_aux θ P (totalScore scores) hP hpos scores hs
      have hTT : (scores.map fun e => e.2.score).sum / totalScore scores = 1 := by
        rw [← htot]
        exact div_self (ne_of_gt hpos)
      rw [hTT, one_mul] at haux
      simpa [computeRights] using haux

/-- Witness for the amended C3: the two-equal-holders scenario with
`P = 3` — each entry is `roundDp0 (1/2 * 3) = 2` and the sum `4` respects
the amended bound `3 + 2`. -/
theorem claimC3_witness :
    (∀ p ∈ computeRights MIN_POT_PERCENTAGE 3 [(1, ⟨1, ⟨1, 100⟩⟩), (2, ⟨1, ⟨1, 100⟩⟩)],
        ∃ us, (p.1, us) ∈ [((1 : Address), (⟨1, ⟨1, 100⟩⟩ : UserScore)), (2, ⟨1, ⟨1, 100⟩⟩)] ∧
          p.2 = DecVal.fin (roundDp0 (us.score /
            totalScore [(1, ⟨1, ⟨1, 100⟩⟩), (2, ⟨1, ⟨1, 100⟩⟩)] * 3))) ∧
    rightsSum (computeRights MIN_POT_PERCENTAGE 3 [(1, ⟨1, ⟨1, 100⟩⟩), (2, ⟨1, ⟨1, 100⟩⟩)]) ≤
      3 + ((computeRights MIN_POT_PERCENTAGE 3
        [(1, ⟨1, ⟨1, 100⟩⟩), (2, ⟨1, ⟨1, 100⟩⟩)]).length : ℚ) :=
  claimC3_amended MIN_POT_PERCENTAGE 3 [(1, ⟨1, ⟨1, 100⟩⟩), (2, ⟨1, ⟨1, 100⟩⟩)]
    (by norm_num)
    (by
      intro e he
      rcases List.mem_cons.mp he with h | h
      · subst h; norm_num
      · rcases List.mem_cons.mp h with h2 | h2
        · subst h2; norm_num
        · exact absurd h2 (List.not_mem_nil e))

/-- Claim C7 amended: when `totalScore = 0` **and no holder's score is
strictly positive** (in particular whenever the event sequence is empty),
the rights table is empty, the Merkle artifact is the well-defined empty
one (sentinel root, no proofs), and the computation completes normally;
the restriction is forced because a positive score over a zero total
yields an `Infinity` share that passes the filter. -/
theorem claimC7_amended (θ P : ℚ) (scores : ScoresMap)
    (h0 : totalScore scores = 0) (hn : ∀ e ∈ scores, e.2.score ≤ 0) :
    computeRights θ P scores = [] ∧
    computeMerkleTree (computeRights θ P scores) = ⟨emptyRoot, []⟩ ∧
    (∀ cfg : Config, runPipeline cfg [] = ([], ⟨emptyRoot, []⟩)) := by
  have hnil : computeRights θ P scores = [] := by
    refine List.filterMap_eq_nil_iff.mpr ?_
    intro e he
    have hle := hn e he
    have hgt : decGtNum (decDiv e.2.score (totalScore scores)) θ = false := by
      rw [h0]
      rcases lt_or_eq_of_le hle with h | h
      · simp [decDiv, decGtNum, ne_of_lt h, not_lt_of_le hle]
      · simp [decDiv, decGtNum, ← h]
    simp [rightsEntry, hgt]
  refine ⟨hnil, ?_, ?_⟩
  · rw [hnil]
    simp [computeMerkleTree, rootFromLevel]
  · intro cfg
    simp [runPipeline, finalScores, processEvents, finalAccrue, computeRights,
      computeMerkleTree, rootFromLevel]

/-- Witness for the amended C7: the empty event sequence gives an empty
scores table with zero total and the empty artifact. -/
theorem claimC7_witness :
    computeRights (1/1000) 3 [] = [] ∧
    computeMerkleTree (computeRights (1/1000) 3 []) = ⟨emptyRoot, []⟩ ∧
    (∀ cfg : Config, runPipeline cfg [] = ([], ⟨emptyRoot, []⟩)) :=
  claimC7_amended (1/1000) 3 [] rfl (by simp)

/-- Claim C9: the core pipeline is deterministic — it is a pure function
of the event sequence, window, latest known block, pool size and
threshold, so two runs agreeing on those inputs produce the same rights
table, root and proof set (the JS `scores` object iterates in insertion
order, which is itself a function of the event sequence and is modelled
by the association list). -/
theorem claimC9_deterministic (c c' : Config) (events : List TransferEvent)
    (h1 : c.startBlock = c'.startBlock) (h2 : c.endBlock = c'.endBlock)
    (h3 : c.latestKnownBlock = c'.latestKnownBlock) (h4 : c.pool = c'.pool)
    (h5 : c.minPct = c'.minPct) :
    runPipeline c events = runPipeline c' events := by
  obtain ⟨a1, a2, a3, a4, a5⟩ := c
  obtain ⟨b1, b2, b3, b4, b5⟩ := c'
  simp only at h1 h2 h3 h4 h5
  subst h1; subst h2; subst h3; subst h4; subst h5
  rfl

/-- Witness for C9 at a concrete run. -/
theorem claimC9_witness :
    runPipeline ⟨0, 300, 1000, 3, 1/1000⟩ [⟨0, 1, 50, 100⟩] =
      runPipeline ⟨0, 300, 1000, 3, 1/1000⟩ [⟨0, 1, 50, 100⟩] :=
  claimC9_deterministic _ _ _ rfl rfl rfl rfl rfl

/-- Claim C10: a self-transfer is balance-neutral and accrues the interval
exactly once — processing `{from: a, to: a, amount, block}` on a holder
with checkpoint `(balance, lastBlock)`, `lastBlock ≤ block`, updates `a`'s
entry to balance unchanged, checkpoint advanced to `block`, and score
increased by exactly one window-clamped increment (the `from`-side
increment is zero because the `to` branch already advanced the checkpoint
to `block`). -/
theorem claimC10_selfTransferNeutral (startBlock : Nat) (st : ScoresMap) (a : Address)
    (amt blk : Nat) (us : UserScore) (ha : a ≠ addressZero)
    (hl : lookupScore st a = some us) (hb : us.prevCheckpoint.block ≤ blk) :
    processEvent startBlock st ⟨a, a, amt, blk⟩ =
      updateScore st a
        { score := us.score + accrueIncrement startBlock us.prevCheckpoint blk
          prevCheckpoint := { amount := us.prevCheckpoint.amount, block := blk } } := by
  have h1 : applyTo startBlock st ⟨a, a, amt, blk⟩ =
      updateScore st a
        { score := us.score + accrueIncrement startBlock us.prevCheckpoint blk
          prevCheckpoint := { amount := us.prevCheckpoint.amount + (amt : ℚ), block := blk } } := by
    simp only [applyTo, hl, if_pos ha]
  have h2 := @lookupScore_updateScore_self st a us
    { score := us.score + accrueIncrement startBlock us.prevCheckpoint blk
      prevCheckpoint := { amount := us.prevCheckpoint.amount + (amt : ℚ), block := blk } } hl
  simp only [processEvent, applyFrom, h1, h2, if_pos ha, updateScore_updateScore,
    accrueIncrement_same_block, add_zero, add_sub_cancel_right]

/-! Monotonicity machinery for the amended C8. -/

lemma accrueIncrement_nonneg (s blk : Nat) (cp : Checkpoint)
    (h0 : 0 ≤ cp.amount) (hb : cp.block ≤ blk) : 0 ≤ accrueIncrement s cp blk := by
  rw [accrueIncrement]
  split_ifs with h1 h2
  · refine mul_nonneg h0 ?_
    have : (s : ℚ) ≤ (blk : ℚ) := by exact_mod_cast le_of_lt h2
    linarith
  · exact le_refl 0
  · refine mul_nonneg h0 ?_
    have : (cp.block : ℚ) ≤ (blk : ℚ) := by exact_mod_cast hb
    linarith

lemma goodState_mono {b b' : Nat} {st : ScoresMap} (h : b ≤ b') (hg : GoodState b st) :
    GoodState b' st :=
  fun e he => ⟨(hg e he).1, le_trans (hg e he).2 h⟩

lemma applyTo_eq_update (s : Nat) (st : ScoresMap) (ev : TransferEvent) (us : UserScore)
    (h0 : ev.toAddr ≠ addressZero) (hl : lookupScore st ev.toAddr = some us) :
    applyTo s st ev = updateScore st ev.toAddr
      { score := us.score + accrueIncrement s us.prevCheckpoint ev.block
        prevCheckpoint :=
          { amount := us.prevCheckpoint.amount + (ev.amount : ℚ), block := ev.block } } := by
  simp only [applyTo, hl, if_pos h0]

lemma applyTo_eq_append (s : Nat) (st : ScoresMap) (ev : TransferEvent)
    (h0 : ev.toAddr ≠ addressZero) (hl : lookupScore st ev.toAddr = none) :
    applyTo s st ev =
      st ++ [(ev.toAddr,
        { score := 0, prevCheckpoint := { amount := (ev.amount : ℚ), block := ev.block } })] := by
  simp only [applyTo, hl, if_pos h0]

lemma applyTo_eq_skip (s : Nat) (st : ScoresMap) (ev : TransferEvent)
    (h0 : ¬ev.toAddr ≠ addressZero) : applyTo s st ev = st := by
  simp only [applyTo, if_neg h0]

lemma applyFrom_eq_update (s : Nat) (st : ScoresMap) (ev : TransferEvent) (us : UserScore)
    (h0 : ev.fromAddr ≠ addressZero) (hl : lookupScore st ev.fromAddr = some us) :
    applyFrom s st ev = updateScore st ev.fromAddr
      { score := us.score + accrueIncrement s us.prevCheckpoint ev.block
        prevCheckpoint :=
          { amount := us.prevCheckpoint.amount - (ev.amount : ℚ), block := ev.block } } := by
  simp only [applyFrom, hl, if_pos h0]

lemma applyFrom_eq_skipNone (s : Nat) (st : ScoresMap) (ev : TransferEvent)
    (hl : lookupScore st ev.fromAddr = none) : applyFrom s st ev = st := by
  simp only [applyFrom, hl]

lemma applyFrom_eq_skipZero (s : Nat) (st : ScoresMap) (ev : TransferEvent) (us : UserScore)
    (hl : lookupScore st ev.fromAddr = some us) (h0 : ¬ev.fromAddr ≠ addressZero) :
    applyFrom s st ev = st := by
  simp only [applyFrom, hl, if_neg h0]

lemma scoreOf_eq_of_lookup_some {st : ScoresMap} {u : Address} {us : UserScore}
    (h : lookupScore st u = some us) : scoreOf st u = us.score := by
  simp only [scoreOf, h]

lemma scoreOf_eq_of_lookup_none {st : ScoresMap} {u : Address}
    (h : lookupScore st u = none) : scoreOf st u = 0 := by
  simp only [scoreOf, h]

lemma scoreOf_updateScore_add_le (st : ScoresMap) (a u : Address) (us : UserScore)
    (hl : lookupScore st a = some us) (inc : ℚ) (hinc : 0 ≤ inc) (cp : Checkpoint) :
    scoreOf st u ≤
      scoreOf (updateScore st a { score := us.score + inc, prevCheckpoint := cp }) u := by
  by_cases hu : u = a
  · subst hu
    rw [scoreOf_eq_of_lookup_some hl,
      scoreOf_eq_of_lookup_some (lookupScore_updateScore_self _ hl)]
    simpa using hinc
  · rw [scoreOf, scoreOf, lookupScore_updateScore_ne _ hu]

lemma scoreOf_applyTo_le (s b : Nat) (st : ScoresMap) (ev : TransferEvent)
    (hg : GoodState b st) (hb : b ≤ ev.block) (u : Address) :
    scoreOf st u ≤ scoreOf (applyTo s st ev) u := by
  by_cases h0 : ev.toAddr ≠ addressZero
  · cases hl : lookupScore st ev.toAddr with
    | some us =>
        have hmem := lookupScore_mem hl
        have hinc := accrueIncrement_nonneg s ev.block us.prevCheckpoint
          (hg _ hmem).1 (le_trans (hg _ hmem).2 hb)
        rw [applyTo_eq_update s st ev us h0 hl]
        exact scoreOf_updateScore_add_le st ev.toAddr u us hl _ hinc _
    | none =>
        rw [applyTo_eq_append s st ev h0 hl]
        cases hl2 : lookupScore st u with
        | some w =>
            rw [scoreOf_eq_of_lookup_some hl2,
              scoreOf_eq_of_lookup_some (lookupScore_append_some hl2 _)]
        | none =>
            rw [scoreOf_eq_of_lookup_none hl2, scoreOf,
              lookupScore_append_none hl2]
            by_cases hu : ev.toAddr = u
            · subst hu
              simp [lookupScore]
            · simp [lookupScore, hu]
  · rw [applyTo_eq_skip s st ev h0]

lemma goodState_applyTo (s b : Nat) (st : ScoresMap) (ev : TransferEvent)
    (hg : GoodState b st) (hb : b ≤ ev.block) :
    GoodState ev.block (applyTo s st ev) := by
  by_cases h0 : ev.toAddr ≠ addressZero
  · cases hl : lookupScore st ev.toAddr with
    | some us =>
        rw [applyTo_eq_update s st ev us h0 hl]
        intro e he
        rcases mem_updateScore he with h1 | h1
        · exact (goodState_mono hb hg) e h1
        · have hmem := lookupScore_mem hl
          have hnn := (hg _ hmem).1
          rw [h1]
          exact ⟨by simpa using add_nonneg hnn (by positivity), le_refl _⟩
    | none =>
        rw [applyTo_eq_append s st ev h0 hl]
        intro e he
        rcases List.mem_append.mp he with h1 | h1
        · exact (goodState_mono hb hg) e h1
        · rcases List.mem_singleton.mp h1 with rfl
          exact ⟨by positivity, le_refl _⟩
  · rw [applyTo_eq_skip s st ev h0]
    exact goodState_mono hb hg

lemma scoreOf_applyFrom_le (s : Nat) (st : ScoresMap) (ev : TransferEvent)
    (hg : GoodState ev.block st) (u : Address) :
    scoreOf st u ≤ scoreOf (applyFrom s st ev) u := by
  cases hl : lookupScore st ev.fromAddr with
  | some us =>
      by_cases h0 : ev.fromAddr ≠ addressZero
      · have hmem := lookupScore_mem hl
        have hinc := accrueIncrement_nonneg s ev.block us.prevCheckpoint
          (hg _ hmem).1 (hg _ hmem).2
        rw [applyFrom_eq_update s st ev us h0 hl]
        exact scoreOf_updateScore_add_le st ev.fromAddr u us hl _ hinc _
      · rw [applyFrom_eq_skipZero s st ev us hl h0]
  | none => rw [applyFrom_eq_skipNone s st ev hl]

lemma goodState_applyFrom (s : Nat) (st : ScoresMap) (ev : TransferEvent)
    (hg : GoodState ev.block st)
    (hod : ev.fromAddr ≠ addressZero →
      ∀ us, lookupScore st ev.fromAddr = some us →
        (ev.amount : ℚ) ≤ us.prevCheckpoint.amount) :
    GoodState ev.block (applyFrom s st ev) := by
  cases hl : lookupScore st ev.fromAddr with
  | some us =>
      by_cases h0 : ev.fromAddr ≠ addressZero
      · rw [applyFrom_eq_update s st ev us h0 hl]
        intro e he
        rcases mem_updateScore he with h1 | h1
        · exact hg e h1
        · rw [h1]
          exact ⟨by simpa using sub_nonneg.mpr (hod h0 us hl), le_refl _⟩
      · rw [applyFrom_eq_skipZero s st ev us hl h0]
        exact hg
  | none =>
      rw [applyFrom_eq_skipNone s st ev hl]
      exact hg

lemma processEvent_step (s b : Nat) (st : ScoresMap) (ev : TransferEvent)
    (hg : GoodState b st) (hb : b ≤ ev.block) (hod : overdraftOk s st ev = true) :
    (∀ u, scoreOf st u ≤ scoreOf (processEvent s st ev) u) ∧
    GoodState ev.block (processEvent s st ev) := by
  have hg1 := goodState_applyTo s b st ev hg hb
  have hod1 : ev.fromAddr ≠ addressZero →
      ∀ us, lookupScore (applyTo s st ev) ev.fromAddr = some us →
        (ev.amount : ℚ) ≤ us.prevCheckpoint.amount := by
    intro h0 us hl
    rw [overdraftOk, if_neg h0, hl] at hod
    exact of_decide_eq_true hod
  constructor
  · intro u
    exact le_trans (scoreOf_applyTo_le s b st ev hg hb u)
      (scoreOf_applyFrom_le s (applyTo s st ev) ev hg1 u)
  · exact goodState_applyFrom s (applyTo s st ev) ev hg1 hod1

lemma processEvents_mono (s : Nat) :
    ∀ (events : List TransferEvent) (st : ScoresMap) (b : Nat),
      GoodState b st → blocksAscendingFrom b events = true →
      noOverdraft s st events = true →
      (∀ u, scoreOf st u ≤ scoreOf (processEvents s st events) u) ∧
      GoodState (endBound b events) (processEvents s st events)
  | [], st, b, hg, _, _ => ⟨fun u => le_refl _, by simpa [processEvents, endBound] using hg⟩
  | ev :: events, st, b, hg, hasc, hno => by
      rw [blocksAscendingFrom, Bool.and_eq_true] at hasc
      rw [noOverdraft, Bool.and_eq_true] at hno
      have hb : b ≤ ev.block := of_decide_eq_true hasc.1
      have step := processEvent_step s b st ev hg hb hno.1
      have rec := processEvents_mono s events (processEvent s st ev) ev.block
        step.2 hasc.2 hno.2
      have hPE : processEvents s st (ev :: events) =
          processEvents s (processEvent s st ev) events := by
        simp [processEvents]
      have hEB : endBound b (ev :: events) = endBound ev.block events := by
        simp [endBound]
      rw [hPE, hEB]
      exact ⟨fun u => le_trans (step.1 u) (rec.1 u), rec.2⟩

lemma blocksAscendingFrom_append :
    ∀ (l₁ l₂ : List TransferEvent) (b : Nat),
      blocksAscendingFrom b (l₁ ++ l₂) = true →
      blocksAscendingFrom b l₁ = true ∧ blocksAscendingFrom (endBound b l₁) l₂ = true
  | [], l₂, b, h => ⟨rfl, by simpa [endBound] using h⟩
  | ev :: l₁, l₂, b, h => by
      rw [List.cons_append, blocksAscendingFrom, Bool.and_eq_true] at h
      have ih := blocksAscendingFrom_append l₁ l₂ ev.block h.2
      refine ⟨?_, by simpa [endBound] using ih.2⟩
      rw [blocksAscendingFrom, Bool.and_eq_true]
      exact ⟨h.1, ih.1⟩

lemma noOverdraft_append (s : Nat) :
    ∀ (l₁ l₂ : List TransferEvent) (st : ScoresMap),
      noOverdraft s st (l₁ ++ l₂) = true →
      noOverdraft s st l₁ = true ∧ noOverdraft s (processEvents s st l₁) l₂ = true
  | [], l₂, st, h => ⟨rfl, by simpa [processEvents] using h⟩
  | ev :: l₁, l₂, st, h => by
      rw [List.cons_append, noOverdraft, Bool.and_eq_true] at h
      have ih := noOverdraft_append s l₁ l₂ (processEvent s st ev) h.2
      refine ⟨?_, by simpa [processEvents] using ih.2⟩
      rw [noOverdraft, Bool.and_eq_true]
      exact ⟨h.1, ih.1⟩

lemma processEvents_append (s : Nat) (st : ScoresMap) (l₁ l₂ : List TransferEvent) :
    processEvents s st (l₁ ++ l₂) = processEvents s (processEvents s st l₁) l₂ := by
  simp [processEvents]

lemma endBound_le {b m : Nat} (hbm : b ≤ m) :
    ∀ events : List TransferEvent,
      events.all (fun ev => decide (ev.block ≤ m)) = true → endBound b events ≤ m
  | [], _ => by simpa [endBound] using hbm
  | ev :: events, h => by
      rw [List.all_cons, Bool.and_eq_true] at h
      have hb : ev.block ≤ m := of_decide_eq_true h.1
      simpa [endBound] using endBound_le hb events h.2

lemma lookupScore_finalAccrue (e : Nat) (st : ScoresMap) (u : Address) :
    lookupScore (finalAccrue e st) u = (lookupScore st u).map
      (fun us =>
        { score := us.score +
            us.prevCheckpoint.amount * ((e : ℚ) - (us.prevCheckpoint.block : ℚ))
          prevCheckpoint := { amount := us.prevCheckpoint.amount, block := e } }) := by
  induction st with
  | nil => rfl
  | cons x rest ih =>
      obtain ⟨a, w⟩ := x
      by_cases ha : a = u
      · subst ha
        simp [finalAccrue, lookupScore]
      · simpa [finalAccrue, lookupScore, ha] using ih

lemma scoreOf_finalAccrue_le (e b : Nat) (st : ScoresMap)
    (hg : GoodState b st) (hbe : b ≤ e) (u : Address) :
    scoreOf st u ≤ scoreOf (finalAccrue e st) u := by
  cases hl : lookupScore st u with
  | some us =>
      have hmem := lookupScore_mem hl
      have hnn := (hg _ hmem).1
      have hble : (us.prevCheckpoint.block : ℚ) ≤ (e : ℚ) := by
        exact_mod_cast le_trans (hg _ hmem).2 hbe
      have h2 : lookupScore (finalAccrue e st) u =
          some { score := us.score +
                   us.prevCheckpoint.amount * ((e : ℚ) - (us.prevCheckpoint.block : ℚ))
                 prevCheckpoint := { amount := us.prevCheckpoint.amount, block := e } } := by
        rw [lookupScore_finalAccrue, hl]
        rfl
      rw [scoreOf_eq_of_lookup_some hl, scoreOf_eq_of_lookup_some h2]
      have : 0 ≤ us.prevCheckpoint.amount * ((e : ℚ) - (us.prevCheckpoint.block : ℚ)) :=
        mul_nonneg hnn (by linarith)
      simpa using this
  | none =>
      have h2 : lookupScore (finalAccrue e st) u = none := by
        rw [lookupScore_finalAccrue, hl]
        rfl
      rw [scoreOf_eq_of_lookup_none hl, scoreOf_eq_of_lookup_none h2]

/-- Claim C8 amended: `accruedScore` is non-decreasing along the run
provided the event sequence is block-ascending, every event lies within
`effectiveEndBlock`, and no event overdraws a balance; both restrictions
are forced — an event past `effectiveEndBlock` makes the final accrual
interval negative, and an overdraft makes a later increment negative. -/
theorem claimC8_amended (s cfgEnd latest : Nat) (l1 l2 : List TransferEvent) (u : Address)
    (hasc : blocksAscendingFrom 0 (l1 ++ l2) = true)
    (hall : (l1 ++ l2).all
      (fun ev => decide (ev.block ≤ effectiveEndBlock cfgEnd latest)) = true)
    (hno : noOverdraft s [] (l1 ++ l2) = true) :
    scoreOf (processEvents s [] l1) u ≤ scoreOf (processEvents s [] (l1 ++ l2)) u ∧
    scoreOf (processEvents s [] (l1 ++ l2)) u ≤
      scoreOf (finalScores s cfgEnd latest (l1 ++ l2)) u := by
  have hg0 : GoodState 0 ([] : ScoresMap) := fun e he => absurd he (List.not_mem_nil e)
  obtain ⟨hasc1, hasc2⟩ := blocksAscendingFrom_append l1 l2 0 hasc
  obtain ⟨hno1, hno2⟩ := noOverdraft_append s l1 l2 [] hno
  have mono1 := processEvents_mono s l1 [] 0 hg0 hasc1 hno1
  have mono2 := processEvents_mono s l2 (processEvents s [] l1) (endBound 0 l1)
    mono1.2 hasc2 hno2
  have monoAll := processEvents_mono s (l1 ++ l2) [] 0 hg0 hasc hno
  have hEnd : endBound 0 (l1 ++ l2) ≤ effectiveEndBlock cfgEnd latest :=
    endBound_le (Nat.zero_le _) (l1 ++ l2) hall
  constructor
  · have := mono2.1 u
    rwa [← processEvents_append] at this
  · exact scoreOf_finalAccrue_le (effectiveEndBlock cfgEnd latest) (endBound 0 (l1 ++ l2))
      (processEvents s [] (l1 ++ l2)) monoAll.2 hEnd u

/-- Witness for the amended C8: the spec's worked example (mints of 50 at
blocks 100 and 200, window `[0, 300]`), split after the first event. -/
theorem claimC8_witness :
    scoreOf (processEvents 0 [] [⟨0, 1, 50, 100⟩]) 1 ≤
      scoreOf (processEvents 0 [] ([⟨0, 1, 50, 100⟩] ++ [⟨0, 1, 50, 200⟩])) 1 ∧
    scoreOf (processEvents 0 [] ([⟨0, 1, 50, 100⟩] ++ [⟨0, 1, 50, 200⟩])) 1 ≤
      scoreOf (finalScores 0 300 1000 ([⟨0, 1, 50, 100⟩] ++ [⟨0, 1, 50, 200⟩])) 1 :=
  claimC8_amended 0 300 1000 [⟨0, 1, 50, 100⟩] [⟨0, 1, 50, 200⟩] 1 rfl rfl rfl

/-- Witness for C10: holder `7` with checkpoint `(10, 100)` self-transfers
4 at block 250. -/
theorem claimC10_witness :
    processEvent 0 [(7, ⟨0, ⟨10, 100⟩⟩)] ⟨7, 7, 4, 250⟩ =
      updateScore [(7, ⟨0, ⟨10, 100⟩⟩)] 7
        { score := 0 + accrueIncrement 0 ⟨10, 100⟩ 250
          prevCheckpoint := ⟨10, 250⟩ } :=
  claimC10_selfTransferNeutral 0 [(7, ⟨0, ⟨10, 100⟩⟩)] 7 4 250 ⟨0, ⟨10, 100⟩⟩
    (by norm_num [addressZero]) rfl (by norm_num)

end MorphoSense

